import Mathlib

/-!
Verification of the fcxc-stats cross-country scraper (`scraper/scraper.py`).

This file gives a shallow embedding of the scraper's pure extraction,
normalization and dedup logic, and proves properties of that embedding.

Modelling conventions:
* Python strings are `List Char` (with `String` wrappers where convenient);
  the repository's data is ASCII, and the Python `str` methods used by the
  scraper (`strip`, `split`, `lower`, `capitalize`) are modelled at ASCII
  granularity, matching their behavior on the scraper's inputs.
* Python floats are modelled as exact rationals.  We use a small
  kernel-computable fraction type `Q` (always kept in lowest terms by the
  smart constructor `Q.mk'`) instead of Mathlib's `ℚ` so that concrete runs
  of the embedded code can be evaluated by `decide`.  `round(x, 2)` is
  modelled as round-half-up to hundredths (Python uses round-half-even on
  floats; the two differ only at exact .xx5 ties, which do not arise in any
  statement below).
* `sys.exit(1)` (the scraper's fatal, run-aborting path) is modelled as an
  explicit error value (`TimeParse.fatal`, `Except.error`), never as a
  silently absorbed result.
* The regular expressions used by the scraper are embedded as deterministic
  token matchers over `List Char`.  For the patterns involved (sequences of
  bounded digit runs and literal separator characters) greedy matching
  without backtracking coincides with Python's leftmost greedy backtracking
  semantics, because every digit run is followed by a non-digit literal or
  by the end of the pattern, so giving back characters can never turn a
  failure into a success.  The one genuinely backtracking pattern (the
  Thornton fallback row regex, with lazy `.+?` groups) is embedded as an
  explicit preference-ordered search.
-/

/-! ## Exact rational numbers (kernel computable) -/

/-- Exact rational number, kept in lowest terms with nonnegative denominator
by the smart constructor `Q.mk'`.  Models the Python `float` values the
scraper computes (time in seconds), with exact instead of binary-floating
arithmetic. -/
structure Q where
  num : Int
  den : Nat
deriving DecidableEq, Repr

/-- Build a `Q` from a signed numerator and denominator, normalizing sign
and dividing out the gcd. -/
def Q.mk' (n d : Int) : Q :=
  if d = 0 then ⟨0, 1⟩
  else
    let s : Int := if d < 0 then -1 else 1
    let n' := s * n
    let d' := (s * d).toNat
    let g := Nat.gcd n'.natAbs d'
    ⟨n' / (g : Int), d' / g⟩

instance (n : Nat) : OfNat Q n := ⟨⟨n, 1⟩⟩

instance : NatCast Q := ⟨fun n => ⟨(n : Int), 1⟩⟩

instance : OfScientific Q :=
  ⟨fun m b e => if b then Q.mk' (m : Int) ((10 ^ e : Nat) : Int) else ⟨(m * 10 ^ e : Nat), 1⟩⟩

instance : Add Q := ⟨fun a b => Q.mk' (a.num * b.den + b.num * a.den) ((a.den * b.den : Nat) : Int)⟩

instance : Mul Q := ⟨fun a b => Q.mk' (a.num * b.num) ((a.den * b.den : Nat) : Int)⟩

instance : Div Q := ⟨fun a b => Q.mk' (a.num * b.den) ((a.den : Int) * b.num)⟩

instance : LT Q := ⟨fun a b => a.num * b.den < b.num * a.den⟩

instance : LE Q := ⟨fun a b => a.num * b.den ≤ b.num * a.den⟩

instance (a b : Q) : Decidable (a < b) :=
  inferInstanceAs (Decidable (a.num * b.den < b.num * a.den))

instance (a b : Q) : Decidable (a ≤ b) :=
  inferInstanceAs (Decidable (a.num * b.den ≤ b.num * a.den))

/-- Round to the nearest integer, halves up: `⌊q + 1/2⌋`. -/
def Q.roundHalfUp (q : Q) : Int := Int.fdiv (2 * q.num + q.den) (2 * q.den)

/-- Python `round(x, 2)`: round to two decimal places.  (Modelled half-up;
see the module docstring.) -/
def Q.round2 (q : Q) : Q := Q.mk' (Q.roundHalfUp (q * 100)) 100

/-! ## ASCII character and string primitives (Python `str` methods) -/

/-- Python `str.isdigit` / regex `\d` for ASCII: `'0'..'9'`. -/
def isDigitC (c : Char) : Bool := decide (48 ≤ c.toNat ∧ c.toNat ≤ 57)

/-- Python whitespace (`str.strip`, `str.split`, regex `\s`):
space, tab, newline, carriage return, vertical tab, form feed. -/
def isPySpace (c : Char) : Bool :=
  decide (c.toNat = 32 ∨ c.toNat = 9 ∨ c.toNat = 10 ∨ c.toNat = 13 ∨ c.toNat = 11 ∨ c.toNat = 12)

/-- Python `str.lower` on one ASCII character. -/
def pyToLower (c : Char) : Char :=
  if 65 ≤ c.toNat ∧ c.toNat ≤ 90 then Char.ofNat (c.toNat + 32) else c

/-- Python `str.upper` on one ASCII character. -/
def pyToUpper (c : Char) : Char :=
  if 97 ≤ c.toNat ∧ c.toNat ≤ 122 then Char.ofNat (c.toNat - 32) else c

/-- Drop leading Python whitespace. -/
def stripLeftWs (l : List Char) : List Char := l.dropWhile isPySpace

/-- Drop trailing Python whitespace. -/
def stripRightWs (l : List Char) : List Char := (l.reverse.dropWhile isPySpace).reverse

/-- Python `str.strip()`. -/
def pyStrip (l : List Char) : List Char := stripRightWs (stripLeftWs l)

/-- Python `str.lower()`. -/
def pyLower (l : List Char) : List Char := l.map pyToLower

/-- String-level `str.strip()`. -/
def pyStripS (s : String) : String := ⟨pyStrip s.data⟩

/-- String-level `str.lower()`. -/
def pyLowerS (s : String) : String := ⟨pyLower s.data⟩

/-- Helper for `pySplit`: `acc` is the current word, reversed. -/
def pySplitAux : List Char → List Char → List (List Char)
  | [], acc => if acc = [] then [] else [acc.reverse]
  | c :: cs, acc =>
    if isPySpace c then
      if acc = [] then pySplitAux cs [] else acc.reverse :: pySplitAux cs []
    else pySplitAux cs (c :: acc)

/-- Python `str.split()` (no argument): split on whitespace runs, dropping
empty fields. -/
def pySplit (l : List Char) : List (List Char) := pySplitAux l []

/-- Python `' '.join(words)`. -/
def joinSpace : List (List Char) → List Char
  | [] => []
  | [w] => w
  | w :: ws => w ++ ' ' :: joinSpace ws

/-- Python `str.capitalize()`: first character uppercased, rest lowercased. -/
def pyCapitalize : List Char → List Char
  | [] => []
  | c :: cs => pyToUpper c :: cs.map pyToLower

/-- First index at which `pat` occurs as a contiguous sublist of `s`
(Python `re.search` of a literal pattern, or the `in` operator). -/
def findSubIdx (pat : List Char) : List Char → Option Nat
  | [] => if pat = [] then some 0 else none
  | c :: s => if List.isPrefixOf pat (c :: s) then some 0 else (findSubIdx pat s).map (· + 1)

/-- Python `pat in s` (substring containment). -/
def containsSub (pat s : List Char) : Bool := (findSubIdx pat s).isSome

/-- Case-insensitive first occurrence index (Python `re.search` of an
escaped literal with `re.IGNORECASE`). -/
def findSubIdxCI (pat s : List Char) : Option Nat := findSubIdx (pyLower pat) (pyLower s)

/-- Python `int(s)` on a string: optional sign then decimal digits
(underscore separators, which never occur in the scraped documents, are not
modelled). `none` models the `ValueError`. -/
def pyInt (s : List Char) : Option Int :=
  let t := pyStrip s
  match t with
  | '+' :: ds => if ds ≠ [] ∧ ds.all isDigitC then some (ds.foldl (fun n c => 10 * n + ((c.toNat : Int) - 48)) 0) else none
  | '-' :: ds => if ds ≠ [] ∧ ds.all isDigitC then some (-(ds.foldl (fun n c => 10 * n + ((c.toNat : Int) - 48)) 0)) else none
  | ds => if ds ≠ [] ∧ ds.all isDigitC then some (ds.foldl (fun n c => 10 * n + ((c.toNat : Int) - 48)) 0) else none

/-- Numeric value of a digit run (`int(group)` for a regex `\d…` group). -/
def natOfDigits (l : List Char) : Nat := l.foldl (fun n c => 10 * n + (c.toNat - 48)) 0

/-! ## Regex token matcher

The time patterns of `parse_time_to_seconds` and the cell grammar of the
John Martin extractor are sequences of bounded digit runs and literal
separator characters.  `matchToks` matches such a sequence greedily against
a prefix of the input, returning the captured digit groups and the
unconsumed remainder.  For these patterns greedy matching without
backtracking agrees with Python's regex semantics (see module docstring). -/

/-- One token of an embedded regular expression: a captured digit run
`\d{lo,hi}` or a literal character. -/
inductive Tok where
  | digits (lo hi : Nat)
  | lit (c : Char)
deriving DecidableEq, Repr

/-- Match a token sequence against a prefix of `s`; return the captured
digit groups and the rest of the input. -/
def matchToks : List Tok → List Char → Option (List (List Char) × List Char)
  | [], s => some ([], s)
  | .lit c :: ts, s =>
    match s with
    | [] => none
    | x :: s' => if x = c then matchToks ts s' else none
  | .digits lo hi :: ts, s =>
    let run := s.takeWhile isDigitC
    let k := min hi run.length
    if lo ≤ k then
      match matchToks ts (s.drop k) with
      | some (gs, r) => some (s.take k :: gs, r)
      | none => none
    else none

/-! ## Time parser (`parse_time_to_seconds`, scraper.py lines 110-161) -/

/-- The five patterns tried in order by `parse_time_to_seconds`:
`(\d{1,2}):(\d{2}):(\d{2})\.(\d{1,2})`, `(\d{1,2}):(\d{2}):(\d{2})`,
`(\d{1,2}):(\d{2})\.(\d{1,2})`, `(\d{1,2}):(\d{2})`, `(\d{3,4})\.(\d{1,2})`. -/
def timePatterns : List (List Tok) :=
  [ [.digits 1 2, .lit ':', .digits 2 2, .lit ':', .digits 2 2, .lit '.', .digits 1 2],
    [.digits 1 2, .lit ':', .digits 2 2, .lit ':', .digits 2 2],
    [.digits 1 2, .lit ':', .digits 2 2, .lit '.', .digits 1 2],
    [.digits 1 2, .lit ':', .digits 2 2],
    [.digits 3 4, .lit '.', .digits 1 2] ]

/-- First pattern (by index) that matches a prefix of `s` (`re.match` is
anchored at the start only). -/
def firstMatchAux : Nat → List (List Tok) → List Char → Option (Nat × List (List Char) × List Char)
  | _, [], _ => none
  | i, p :: ps, s =>
    match matchToks p s with
    | some (gs, r) => some (i, gs, r)
    | none => firstMatchAux (i + 1) ps s

/-- Fractional part: one digit is tenths, two digits are hundredths. -/
def fracVal (f : List Char) : Q :=
  if f.length = 1 then (natOfDigits f : Q) / 10 else (natOfDigits f : Q) / 100

/-- Total seconds computed by branch `i` of `parse_time_to_seconds` from the
captured groups.  Branch 1 (the undotted `X:YY:ZZ` shape) reads its three
fields as minutes : seconds : hundredths, exactly as the source does. -/
def shapeTotal : Nat → List (List Char) → Q
  | 0, [h, m, s, f] => ((natOfDigits h * 3600 + natOfDigits m * 60 + natOfDigits s : Nat) : Q) + fracVal f
  | 1, [m, s, hs] => ((natOfDigits m * 60 + natOfDigits s : Nat) : Q) + (natOfDigits hs : Q) / 100
  | 2, [m, s, f] => ((natOfDigits m * 60 + natOfDigits s : Nat) : Q) + fracVal f
  | 3, [m, s] => ((natOfDigits m * 60 + natOfDigits s : Nat) : Q)
  | 4, [s, f] => ((natOfDigits s : Nat) : Q) + fracVal f
  | _, _ => 0

/-- Outcome of `parse_time_to_seconds`: `failure` models `return None`,
`fatal` models the `sys.exit(1)` sanity-ceiling path, `ok` a normal
return. -/
inductive TimeParse where
  | failure
  | fatal (total : Q)
  | ok (total : Q)
deriving DecidableEq, Repr

/-- `parse_time_to_seconds` (scraper.py lines 110-161). -/
def parse_time_to_seconds (s : List Char) : TimeParse :=
  match firstMatchAux 0 timePatterns (pyStrip s) with
  | none => .failure
  | some (i, gs, _) =>
    let total := shapeTotal i gs
    if 3600 < total then .fatal total else .ok total

/-- The tail of `parse_time_to_seconds` after a successful match
(lines 154-159): return the computed total, or take the fatal
`sys.exit(1)` path when it exceeds the 3600-second sanity ceiling. -/
def sanityWrap (total : Q) : TimeParse :=
  if 3600 < total then .fatal total else .ok total

/-! ## Data model (scraper.py dataclasses `Athlete`, `Result`) -/

/-- The `Athlete` dataclass. -/
structure Athlete where
  first_name : String
  last_name : String
  gender : String
  school : String
  graduation_year : Option Int := none
deriving DecidableEq, Repr

/-- The `Result` dataclass. -/
structure Result where
  athlete : Athlete
  time_seconds : Q
  place : Int
  varsity_points : Int := 0
deriving DecidableEq, Repr

/-! ## Name and school normalization (scraper.py lines 99-108, 818-840, 2159-2189) -/

/-- `normalize_name` (lines 2159-2161):
`' '.join([w.capitalize() for w in name.split()])`. -/
def normalize_name (name : String) : String :=
  ⟨joinSpace ((pySplit name.data).map pyCapitalize)⟩

/-- Exact-match association-list lookup (Python `dict` lookup / `dict.get`). -/
def lookupTable (m : List (String × String)) (k : String) : Option String :=
  (m.find? (fun p => p.1 == k)).map (·.2)

/-- Python `str.endswith`. -/
def endsWithS (s suf : String) : Bool := List.isSuffixOf suf.data s.data

/-- The `school_mappings` dict of `normalize_school_name` (lines 2168-2177). -/
def school_mappings : List (String × String) :=
  [ ("Fort Collins", "Fort Collins High School"),
    ("Fort Collins HS", "Fort Collins High School"),
    ("Fort Collins High Sc", "Fort Collins High School"),
    ("FCHS", "Fort Collins High School"),
    ("Fossil Ridge HS", "Fossil Ridge High School"),
    ("Fossil Ridge", "Fossil Ridge High School"),
    ("Rocky Mountain HS", "Rocky Mountain High School"),
    ("Rocky Mountain", "Rocky Mountain High School") ]

/-- `normalize_school_name` (lines 2163-2189): strip, exact table lookup,
then the `" HS"` → `" High School"` suffix rewrite as fallback. -/
def normalize_school_name (school : String) : String :=
  let school := pyStripS school
  match lookupTable school_mappings school with
  | some v => v
  | none =>
    if endsWithS school " HS" && !(endsWithS school " High School") then
      ⟨pyStrip (school.data.take (school.data.length - 3)) ++ " High School".data⟩
    else school

/-- The `school_mappings` dict of `fix_thornton_school_name` (lines 821-837). -/
def thornton_school_mappings : List (String × String) :=
  [ ("Fort Collins", "Fort Collins High School"),
    ("Fort Collins High Sc", "Fort Collins High School"),
    ("Fossil Ridge High Sc", "Fossil Ridge High School"),
    ("Rocky Mountain High", "Rocky Mountain High School"),
    ("Denver East High Sch", "Denver East High School"),
    ("Clear Creek High Sch", "Clear Creek High School"),
    ("Fort Lupton High Sch", "Fort Lupton High School"),
    ("Westminster High Sch", "Westminster High School"),
    ("Wheat Ridge High Sch", "Wheat Ridge High School"),
    ("Cheyenne Central Hig", "Cheyenne Central High School"),
    ("Cheyenne East High S", "Cheyenne East High School"),
    ("Prospect Ridge Acade", "Prospect Ridge Academy"),
    ("Frederick High Schoo", "Frederick High School"),
    ("Ascent Classical Aca", "Ascent Classical Academy of Northern Colorado"),
    ("Ascent Classical Academy of Nort", "Ascent Classical Academy of Northern Colorado") ]

/-- `fix_thornton_school_name` (lines 818-840). -/
def fix_thornton_school_name (school_name : String) : String :=
  match lookupTable thornton_school_mappings school_name with
  | some v => v
  | none => school_name

/-- The `gender_map` dict of `map_gender_for_db` (lines 101-107). -/
def gender_map : List (String × String) :=
  [ ("boys", "male"), ("girls", "female"), ("mixed", "mixed"),
    ("male", "male"), ("female", "female") ]

/-- `map_gender_for_db` (lines 99-108). -/
def map_gender_for_db (config_gender : String) : String :=
  match lookupTable gender_map (pyLowerS config_gender) with
  | some v => v
  | none => pyLowerS config_gender

/-! ## Dedup / merge engine (`store_race_results`, scraper.py lines 2043-2113)

The storage adapter (SQL) is external; what is modelled is the pure core:
the rows stored for a race, the dedup key computed from a stored row and
from a freshly extracted record, and the insert-only delta. -/

/-- One stored `results` row joined with its athlete, as fetched by the
existing-results query (lines 2048-2056). -/
structure StoredResultRow where
  first_name : String
  last_name : String
  school : String
  time_seconds : Q
  place : Int
deriving DecidableEq, Repr

/-- Dedup key of an already-stored row (lines 2060-2069): stripped
lower-cased names and school, time rounded to two decimals, place. -/
def existingResultKey (r : StoredResultRow) : String × String × String × Q × Int :=
  (pyLowerS (pyStripS r.first_name), pyLowerS (pyStripS r.last_name),
   pyLowerS (pyStripS r.school), Q.round2 r.time_seconds, r.place)

/-- Dedup key of a newly extracted record (lines 2076-2082). -/
def newResultKey (r : Result) : String × String × String × Q × Int :=
  (pyLowerS (pyStripS r.athlete.first_name), pyLowerS (pyStripS r.athlete.last_name),
   pyLowerS (pyStripS r.athlete.school), Q.round2 r.time_seconds, r.place)

/-- The rows inserted when the race did not previously exist
(lines 2133-2149): every extracted record is stored as-is. -/
def storedRowsOfNewRace (results : List Result) : List StoredResultRow :=
  results.map (fun r =>
    ⟨r.athlete.first_name, r.athlete.last_name, r.athlete.school, r.time_seconds, r.place⟩)

/-- The merge loop of `store_race_results` for an existing race
(lines 2058-2094): returns the records submitted for insertion (in order)
and the number of skipped duplicates. -/
def mergeNewResults (existingRows : List StoredResultRow) (results : List Result) :
    List Result × Nat :=
  let existing_set := existingRows.map existingResultKey
  results.foldl
    (fun acc r =>
      if newResultKey r ∈ existing_set then (acc.1, acc.2 + 1) else (acc.1 ++ [r], acc.2))
    ([], 0)

/-! ## John Martin extractor (`scrape_john_martin_format`, scraper.py lines 163-234)

The HTML plumbing (file fetch, BeautifulSoup) is external; a table is
modelled as its list of rows, each row as the list of stripped cell texts.
The first row is dropped when more than one row is present (header skip,
lines 186-187). -/

/-- The anchored alternation
`^(\d{1,2}:\d{2}(?:\.\d{2})?|\d{1,2}:\d{2}:\d{2}(?:\.\d{2})?|\d{2,4}\.\d{2})$`
(line 183), expanded into its five alternative token sequences. -/
def johnMartinTimeToks : List (List Tok) :=
  [ [.digits 1 2, .lit ':', .digits 2 2],
    [.digits 1 2, .lit ':', .digits 2 2, .lit '.', .digits 2 2],
    [.digits 1 2, .lit ':', .digits 2 2, .lit ':', .digits 2 2],
    [.digits 1 2, .lit ':', .digits 2 2, .lit ':', .digits 2 2, .lit '.', .digits 2 2],
    [.digits 2 4, .lit '.', .digits 2 2] ]

/-- Does the token sequence match the whole of `s`? -/
def fullMatchToks (p : List Tok) (s : List Char) : Bool :=
  match matchToks p s with
  | some (_, []) => true
  | _ => false

/-- `time_pattern.match(time_val)` of the John Martin extractor: full-string
match against the time grammar. -/
def jmTimePattern (s : List Char) : Bool :=
  johnMartinTimeToks.any (fun p => fullMatchToks p s)

/-- The body of the row loop of `scrape_john_martin_format`
(lines 189-228) for a single row: `none` means the row is skipped (not
exactly four cells), `some (.error ())` models `sys.exit(1)` — a
structurally recognized row whose time cell fails the grammar, or whose
place is not an integer, or whose name is empty, or whose time does not
parse (`None` or the sanity-ceiling exit) — and `some (.ok r)` a parsed
record. -/
def jmRowStep (gender : String) (row : List (List Char)) : Option (Except Unit Result) :=
  match row with
  | [place_val, name_val, school_val, time_val] =>
    some (
      if ¬ jmTimePattern time_val then .error ()
      else
        match pyInt place_val with
        | none => .error ()
        | some place =>
          match parse_time_to_seconds time_val with
          | .failure => .error ()
          | .fatal _ => .error ()
          | .ok time_seconds =>
            match pySplit name_val with
            | [] => .error ()
            | p0 :: ps =>
              let first_name := normalize_name ⟨p0⟩
              let last_name := normalize_name (if ps.isEmpty then "" else ⟨joinSpace ps⟩)
              let athlete : Athlete :=
                ⟨first_name, last_name, map_gender_for_db gender,
                 normalize_school_name ⟨school_val⟩, none⟩
              .ok (⟨athlete, time_seconds, place, 0⟩ : Result))
  | _ => none

/-- The row loop of `scrape_john_martin_format` (lines 188-229): skipped
rows contribute nothing, a fatal row aborts the whole run, parsed records
are collected in order. -/
def jmProcessRows (gender : String) : List (List (List Char)) → Except Unit (List Result)
  | [] => .ok []
  | row :: rest =>
    match jmRowStep gender row with
    | none => jmProcessRows gender rest
    | some (.error e) => .error e
    | some (.ok r) => (jmProcessRows gender rest).map (fun rs => r :: rs)

/-- `scrape_john_martin_format` on an already-extracted table: skip the
header row when more than one row is present, then run the row loop. -/
def scrape_john_martin_rows (gender : String) (rows : List (List (List Char))) :
    Except Unit (List Result) :=
  jmProcessRows gender (if 1 < rows.length then rows.tail else rows)

/-! ## Thornton combined extractor
(`scrape_thornton_combined_format` / `parse_thornton_race_text`,
scraper.py lines 236-487) -/

/-- Python `text.split('\n')` (keeps empty fields). -/
def splitNl : List Char → List (List Char)
  | [] => [[]]
  | c :: cs =>
    match splitNl cs with
    | [] => [[]]
    | x :: xs => if c = '\n' then [] :: x :: xs else (c :: x) :: xs

/-- Python `re.split(r'\s{2,}', s)`: split on (maximal) whitespace runs of
length at least two; single whitespace characters stay inside a field.
`pend` buffers the whitespace run currently being read and `acc` the
current field, both reversed; when a non-whitespace character (or the end)
follows a buffered run of length ≥ 2, that run acts as a separator. -/
def splitWs2Aux : List Char → List Char → List Char → List (List Char)
  | [], pend, acc =>
    if 2 ≤ pend.length then [acc.reverse, []] else [(pend ++ acc).reverse]
  | c :: cs, pend, acc =>
    if isPySpace c then splitWs2Aux cs (c :: pend) acc
    else
      if 2 ≤ pend.length then acc.reverse :: splitWs2Aux cs [] [c]
      else splitWs2Aux cs [] (c :: (pend ++ acc))

/-- Python `re.split(r'\s{2,}', s)`. -/
def splitWs2 (l : List Char) : List (List Char) := splitWs2Aux l [] []

/-- The Thornton time pattern `(\d{1,2}:\d{2}\.\d{2})` (line 372). -/
def thorntonTimeToks : List Tok :=
  [.digits 1 2, .lit ':', .digits 2 2, .lit '.', .digits 2 2]

/-- `re.search`: find the leftmost position where the token sequence
matches, returning (text before the match, matched text, text after). -/
def searchToksAux (ts : List Tok) : List Char → List Char → Option (List Char × List Char × List Char)
  | brev, s =>
    match matchToks ts s with
    | some (_, r) => some (brev.reverse, s.take (s.length - r.length), r)
    | none =>
      match s with
      | [] => none
      | c :: s' => searchToksAux ts (c :: brev) s'

/-- `re.search(r'(\d{1,2}:\d{2}\.\d{2})', line)`. -/
def searchThorntonTime (line : List Char) : Option (List Char × List Char × List Char) :=
  searchToksAux thorntonTimeToks [] line

/-- `re.match(r'^(\d+)\s+(.+)$', s)`: leading digit run, a whitespace run,
then a nonempty remainder (which, `.` not matching newlines, must be
newline-free). -/
def matchPlaceName (s : List Char) : Option (List Char × List Char) :=
  let ds := s.takeWhile isDigitC
  if ds = [] then none
  else
    let rest1 := s.drop ds.length
    let ws := rest1.takeWhile isPySpace
    if ws = [] then none
    else
      let rest2 := rest1.drop ws.length
      if rest2 = [] ∨ rest2.contains '\n' then none else some (ds, rest2)

/-- `re.match(r'^(\d{1,2})\s+(.+)$', s)`: as `matchPlaceName` but the digit
run must have length one or two (a longer run cannot match, since
backtracking inside it only lands on further digits). -/
def matchGradeSchool (s : List Char) : Option (List Char × List Char) :=
  let ds := s.takeWhile isDigitC
  if ds = [] ∨ 3 ≤ ds.length then none
  else
    let rest1 := s.drop ds.length
    let ws := rest1.takeWhile isPySpace
    if ws = [] then none
    else
      let rest2 := rest1.drop ws.length
      if rest2 = [] ∨ rest2.contains '\n' then none else some (ds, rest2)

/-- Candidate lengths for a greedy `\s+`: longest first. -/
def wsPlusCands (s : List Char) : List Nat :=
  let m := (s.takeWhile isPySpace).length
  (List.range m).map (fun i => m - i)

/-- Candidate lengths for a greedy `\s*`: longest first, down to zero. -/
def wsStarCands (s : List Char) : List Nat :=
  let m := (s.takeWhile isPySpace).length
  (List.range (m + 1)).map (fun i => m - i)

/-- Candidate lengths for a lazy `.+?`: shortest first (`.` matches
anything but a newline). -/
def dotPlusLazyCands (s : List Char) : List Nat :=
  let m := (s.takeWhile (fun c => c ≠ '\n')).length
  (List.range m).map (· + 1)

/-- Candidate lengths for a greedy `\d*`: longest first, down to zero. -/
def digitsStarCands (s : List Char) : List Nat :=
  let m := (s.takeWhile isDigitC).length
  (List.range (m + 1)).map (fun i => m - i)

/-- The Thornton fallback row regex (line 409)
`^\s*(\d+)\s+(.+?)\s+(\d{2})\s+(.+?)\s+(\d{1,2}:\d{2}\.\d{2})\s*(\d*)\s*$`,
embedded as a preference-ordered backtracking search: quantifier
alternatives are tried greedy-longest (or lazy-shortest) first, leftmost
quantifier varying slowest, exactly as a backtracking regex engine does.
Returns the six captured groups of the first decomposition found. -/
def fallbackThorntonMatch (line : List Char) :
    Option (List Char × List Char × List Char × List Char × List Char × List Char) :=
  let s0 := line.dropWhile isPySpace
  let g1 := s0.takeWhile isDigitC
  if g1 = [] then none
  else
    let s1 := s0.drop g1.length
    (wsPlusCands s1).findSome? (fun w1 =>
      let s2 := s1.drop w1
      (dotPlusLazyCands s2).findSome? (fun n2 =>
        let g2 := s2.take n2
        let s3 := s2.drop n2
        (wsPlusCands s3).findSome? (fun w3 =>
          let s4 := s3.drop w3
          let g3 := s4.take 2
          if g3.length = 2 ∧ g3.all isDigitC then
            let s5 := s4.drop 2
            (wsPlusCands s5).findSome? (fun w5 =>
              let s6 := s5.drop w5
              (dotPlusLazyCands s6).findSome? (fun n6 =>
                let g4 := s6.take n6
                let s7 := s6.drop n6
                (wsPlusCands s7).findSome? (fun w7 =>
                  let s8 := s7.drop w7
                  match matchToks thorntonTimeToks s8 with
                  | none => none
                  | some (_, r8) =>
                    let g5 := s8.take (s8.length - r8.length)
                    (wsStarCands r8).findSome? (fun w9 =>
                      let s10 := r8.drop w9
                      (digitsStarCands s10).findSome? (fun d10 =>
                        let g6 := s10.take d10
                        let s11 := s10.drop d10
                        (wsStarCands s11).findSome? (fun w11 =>
                          if s11.drop w11 = [] then some (g1, g2, g3, g4, g5, g6)
                          else none))))))
          else none)))

/-- The per-line parse of `parse_thornton_race_text` (lines 371-421):
locate the time, split the text before it on two-or-more-space runs, and
extract (place, name, school, time string); the fallback regex is used when
the split yields fewer than two fields.  `none` models every `continue`. -/
def parseThorntonLine (line : List Char) : Option (Int × List Char × List Char × List Char) :=
  match searchThorntonTime line with
  | none => none
  | some (before, matched, _) =>
    let before_time := pyStrip before
    let parts_before := splitWs2 before_time
    match parts_before with
    | p0 :: p1 :: restParts =>
      let place_name_part := pyStrip p0
      match matchPlaceName place_name_part with
      | none => none
      | some (ds, nameRaw) =>
        let grade_school_part := pyStrip (joinSpace (p1 :: restParts))
        match matchGradeSchool grade_school_part with
        | none => none
        | some (_, schoolRaw) =>
          some ((natOfDigits ds : Int), pyStrip nameRaw, pyStrip schoolRaw, matched)
    | _ =>
      match fallbackThorntonMatch line with
      | none => none
      | some (g1, g2, _, g4, g5, _) =>
        some ((natOfDigits g1 : Int), pyStrip g2, pyStrip g4, pyStrip g5)

/-- The line scan of `parse_thornton_race_text` (lines 335-470): skip until
a ten-dash separator, stop at team scores, parse data lines, build
records.  `Except.error t` models the `sys.exit(1)` inside
`parse_time_to_seconds` when a matched time exceeds the sanity ceiling
(`SystemExit` is not caught by the `except Exception` handler). -/
def thorntonScanLines (gender : String) : List (List Char) → Bool → Except Q (List Result)
  | [], _ => .ok []
  | l :: ls, inR =>
    let line := pyStrip l
    if line = [] then thorntonScanLines gender ls inR
    else if containsSub "----------".data line then thorntonScanLines gender ls true
    else if ¬ inR then thorntonScanLines gender ls inR
    else if containsSub "Team Scores".data line || containsSub "Total Time:".data line then .ok []
    else
      match parseThorntonLine line with
      | none => thorntonScanLines gender ls inR
      | some (place, name, school, time_str) =>
        match parse_time_to_seconds time_str with
        | .failure => thorntonScanLines gender ls inR
        | .fatal t => .error t
        | .ok tsec =>
          let nameS : String := ⟨name⟩
          let (first_name, last_name) :=
            match pySplit name with
            | p0 :: p1 :: restP => ((⟨p0⟩ : String), (⟨joinSpace (p1 :: restP)⟩ : String))
            | _ => (nameS, "")
          let schoolFixed := fix_thornton_school_name ⟨school⟩
          let athlete : Athlete :=
            ⟨normalize_name first_name, normalize_name last_name,
             map_gender_for_db gender, normalize_school_name schoolFixed, none⟩
          (thorntonScanLines gender ls inR).map
            (fun rs => (⟨athlete, tsec, place, 0⟩ : Result) :: rs)

/-- The place/record-count validator (lines 475-484): `true` iff the
mismatch warning is logged.  The record list itself is not touched. -/
def thorntonPlaceWarn (results : List Result) : Bool :=
  match results.map (fun r => r.place) with
  | [] => false
  | p :: ps => decide (ps.foldl max p ≠ (results.length : Int))

/-- `parse_thornton_race_text` (lines 333-487): scan the section text, then
run the validator; the function returns the records unchanged together with
the validator's warning flag (the source only logs the warning). -/
def parse_thornton_race_text (text : List Char) (gender : String) :
    Except Q (List Result × Bool) :=
  (thorntonScanLines gender (splitNl text) false).map (fun rs => (rs, thorntonPlaceWarn rs))

/-- The race-header table of `scrape_thornton_combined_format`
(lines 276-290). -/
def thorntonTargetHeader (race_class gender : String) : Option String :=
  let rc := pyLowerS race_class
  let g := pyLowerS gender
  if rc = "jv" ∧ g = "boys" then some "JV Boys 5000 Meter Run"
  else if rc = "jv" ∧ g = "girls" then some "JV Girls 5000 Meter Run"
  else if rc = "varsity" ∧ g = "boys" then some "Varsity Boys 5000 Meter Run"
  else if rc = "varsity" ∧ g = "girls" then some "Varsity Girls 5000 Meter Run"
  else none

/-- The `end_patterns` list (lines 305-309); each regex is a literal or an
alternation of two literals, matched case-insensitively. -/
def thorntonEndPatterns : List (List String) :=
  [ ["Team Scores"],
    ["JV Boys 5000 Meter Run", "JV Girls 5000 Meter Run"],
    ["Varsity Boys 5000 Meter Run", "Varsity Girls 5000 Meter Run"] ]

/-- Leftmost case-insensitive occurrence of any alternative. -/
def searchAltsCI (alts : List String) (s : List Char) : Option Nat :=
  (alts.filterMap (fun a => findSubIdxCI a.data s)).min?

/-- The end-of-section loop (lines 311-318): try each end pattern in order;
the first one that matches at a positive offset into the remaining text
sets the end position and stops the loop (a match at offset zero falls
through to the next pattern). -/
def thorntonEndOffset : List (List String) → List Char → Option Nat
  | [], _ => none
  | alts :: more, rest =>
    match searchAltsCI alts rest with
    | some i => if 0 < i then some i else thorntonEndOffset more rest
    | none => thorntonEndOffset more rest

/-- `scrape_thornton_combined_format` (lines 236-331) on the extracted
`<pre>` text: locate the configured race header, slice the text from the
header to the computed end position, and parse that slice. -/
def scrape_thornton_combined_format (text : List Char) (race_class gender : String) :
    Except Q (List Result) :=
  match thorntonTargetHeader race_class gender with
  | none => .ok []
  | some header =>
    match findSubIdxCI header.data text with
    | none => .ok []
    | some j =>
      let start_pos := j + header.data.length
      let rest := text.drop start_pos
      let end_off :=
        match thorntonEndOffset thorntonEndPatterns rest with
        | some i => i
        | none => rest.length
      (parse_thornton_race_text (rest.take end_off) gender).map Prod.fst

/-! ## Auxiliary predicates and concrete documents used by the theorems -/

deriving instance DecidableEq for Except

/-- Does some supported time shape match the whole of `s`? -/
def fullShapeMatch (s : List Char) : Bool :=
  timePatterns.any (fun p => fullMatchToks p s)

/-- Every digit token of the pattern requires at least one digit. -/
def tokMinOne : Tok → Prop
  | .digits lo _ => 1 ≤ lo
  | .lit _ => True

instance : DecidablePred tokMinOne := fun t =>
  match t with
  | .digits lo _ => inferInstanceAs (Decidable (1 ≤ lo))
  | .lit _ => inferInstanceAs (Decidable True)

/-- Every literal token of the pattern is a non-whitespace character. -/
def tokNoWs : Tok → Prop
  | .digits _ _ => True
  | .lit c => isPySpace c = false

instance : DecidablePred tokNoWs := fun t =>
  match t with
  | .digits _ _ => inferInstanceAs (Decidable True)
  | .lit c => inferInstanceAs (Decidable (isPySpace c = false))

/-- Shorthand for an athlete record with no graduation year. -/
def aAthlete (f l g s : String) : Athlete := ⟨f, l, g, s, none⟩

/-- A Thornton-format race section whose five data rows carry places
1, 2, 3, 4, 6 (place 5 missing, as for a scratched athlete). -/
def c7doc : String :=
  "Varsity Girls 5000 Meter Run\n" ++
  "Place Name                    Year School               Time     Points\n" ++
  "--------------------------------------------------------------------\n" ++
  "  1 Alice Apple           11 Laramie High School  17:01.10      1\n" ++
  "  2 Betty Berry           10 Laramie High School  17:02.20      2\n" ++
  "  3 Cara Cherry           12 Laramie High School  17:03.30      3\n" ++
  "  4 Dana Date             11 Laramie High School  17:04.40      4\n" ++
  "  6 Erin Elder             9 Laramie High School  17:05.50      5\n"

/-- The records extracted from `c7doc`. -/
def c7records : List Result :=
  [ ⟨aAthlete "Alice" "Apple" "female" "Laramie High School", 1021.1, 1, 0⟩,
    ⟨aAthlete "Betty" "Berry" "female" "Laramie High School", 1022.2, 2, 0⟩,
    ⟨aAthlete "Cara" "Cherry" "female" "Laramie High School", 1023.3, 3, 0⟩,
    ⟨aAthlete "Dana" "Date" "female" "Laramie High School", 1024.4, 4, 0⟩,
    ⟨aAthlete "Erin" "Elder" "female" "Laramie High School", 1025.5, 6, 0⟩ ]

/-- A combined Thornton document: a Varsity Boys section with two
finishers, immediately followed by a JV Boys section with one finisher,
followed by a team-scores block.  The section delimiter that follows the
Varsity Boys section is the `JV Boys 5000 Meter Run` header. -/
def c4doc : String :=
  "Varsity Boys 5000 Meter Run\n" ++
  "Place Name                    Year School               Time     Points\n" ++
  "--------------------------------------------------------------------\n" ++
  "  1 Alan Aspen            11 Fort Collins High Sc  16:01.10      1\n" ++
  "  2 Bill Birch            10 Laramie High School  16:02.20      2\n" ++
  "\n" ++
  "JV Boys 5000 Meter Run\n" ++
  "Place Name                    Year School               Time     Points\n" ++
  "--------------------------------------------------------------------\n" ++
  "  1 Zed Zebra             9 Laramie High School  18:00.00      1\n" ++
  "\n" ++
  "Team Scores\n" ++
  "1. Laramie High School 23\n"

/-- The two records of the Varsity Boys section of `c4doc`. -/
def c4varsityRecords : List Result :=
  [ ⟨aAthlete "Alan" "Aspen" "male" "Fort Collins High School", 961.1, 1, 0⟩,
    ⟨aAthlete "Bill" "Birch" "male" "Laramie High School", 962.2, 2, 0⟩ ]

/-- The single record of the adjacent JV Boys section of `c4doc`. -/
def c4jvRecord : Result :=
  ⟨aAthlete "Zed" "Zebra" "male" "Laramie High School", 1080, 1, 0⟩

/-- The stored row of claim C6: mixed case, time `16:42.450001` seconds. -/
def c6stored : StoredResultRow :=
  ⟨"JOHN", "DOE", "Fort Collins High School", 1002.450001, 1⟩

/-- The freshly parsed record of claim C6: time computing to `1002.454`. -/
def c6new : Result :=
  ⟨⟨"John", "Doe", "male", "FORT COLLINS HIGH SCHOOL", none⟩, 1002.454, 1, 0⟩

/-! ## Helper lemmas -/

theorem Q.le_of_not_lt {a b : Q} (h : ¬ a < b) : b ≤ a := by
  change ¬ (a.num * b.den < b.num * a.den) at h
  change b.num * a.den ≤ a.num * b.den
  exact Int.not_lt.mp h

theorem mergeSkipAll (ks : List (String × String × String × Q × Int)) :
    ∀ (l : List Result) (acc : List Result) (n : Nat), (∀ r ∈ l, newResultKey r ∈ ks) →
      l.foldl
        (fun acc r => if newResultKey r ∈ ks then (acc.1, acc.2 + 1) else (acc.1 ++ [r], acc.2))
        (acc, n) = (acc, n + l.length) := by
  intro l
  induction l with
  | nil => intro acc n _; simp
  | cons r l ih =>
    intro acc n h
    have hr : newResultKey r ∈ ks := h r (List.mem_cons_self r l)
    simp only [List.foldl_cons, if_pos hr]
    rw [ih acc (n + 1) (fun x hx => h x (List.mem_cons_of_mem r hx))]
    simp only [List.length_cons, Prod.mk.injEq, true_and]
    omega

/-! ## C1 (counterexample; the amended theorem is at the end of the file,
after the matcher-evaluation lemmas it depends on) -/

/-- C1 counterexample: on the input `"1:02:03"` the parser does not return
`3723.0` (one hour, two minutes, three seconds) as the claim states; it
returns `62.03`, reading the shape as minutes : seconds : hundredths. -/
theorem c1_time_literal_shapes_counterexample :
    parse_time_to_seconds "1:02:03".data ≠ .ok 3723 ∧
    parse_time_to_seconds "1:02:03".data = .ok 62.03 := by decide

/-! ## C2 -/

/-- C2: running the merge engine a second time with the identical record
list, after a first run on initially-empty storage inserted every record,
submits zero records for insertion and skips all of them: each record's
key is found among the keys of the stored rows. -/
theorem c2_idempotent_ingestion (results : List Result) :
    mergeNewResults (storedRowsOfNewRace results) results = ([], results.length) := by
  have hkeys : (storedRowsOfNewRace results).map existingResultKey
      = results.map newResultKey := by
    simp only [storedRowsOfNewRace, List.map_map]
    rfl
  unfold mergeNewResults
  rw [hkeys]
  have h := mergeSkipAll (results.map newResultKey) results [] 0
    (fun r hr => List.mem_map_of_mem newResultKey hr)
  rw [h]
  simp

/-! ## C3 -/

/-- C3: for every input string, `parse_time_to_seconds` returns the typed
failure exactly when no pattern matches; every fatal (run-aborting) result
carries a total exceeding 3600 seconds; and every normally returned total
is at most 3600 and is exactly the value computed from the matched shape —
never a clamped value. -/
theorem c3_sanity_ceiling (s : List Char) :
    (parse_time_to_seconds s = .failure ↔ firstMatchAux 0 timePatterns (pyStrip s) = none) ∧
    (∀ t, parse_time_to_seconds s = .fatal t → 3600 < t) ∧
    (∀ t, parse_time_to_seconds s = .ok t →
      t ≤ 3600 ∧
      ∃ i gs r, firstMatchAux 0 timePatterns (pyStrip s) = some (i, gs, r) ∧ t = shapeTotal i gs) := by
  unfold parse_time_to_seconds
  cases h : firstMatchAux 0 timePatterns (pyStrip s) with
  | none => simp
  | some x =>
    obtain ⟨i, gs, r⟩ := x
    by_cases hlt : (3600 : Q) < shapeTotal i gs
    · simp only [if_pos hlt]
      refine ⟨by simp, ?_, by simp⟩
      intro t ht
      cases ht
      exact hlt
    · simp only [if_neg hlt]
      refine ⟨by simp, by simp, ?_⟩
      intro t ht
      cases ht
      exact ⟨Q.le_of_not_lt hlt, i, gs, r, rfl, rfl⟩

/-- Witness for C3 at a concrete fatal input: `"5000.00"` parses to a
total of 5000 seconds and takes the fatal path, and the theorem yields
`3600 < 5000`. -/
theorem c3_sanity_ceiling_witness :
    (3600 : Q) < 5000 ∧ parse_time_to_seconds "5000.00".data = .fatal 5000 :=
  have h : parse_time_to_seconds "5000.00".data = .fatal 5000 := by decide
  ⟨(c3_sanity_ceiling "5000.00".data).2.1 5000 h, h⟩

/-! ## C5 -/

/-- C5 counterexample: the exact-match table lookup is case-sensitive, so
the lower-cased input `"fort collins"` is returned unchanged, not mapped to
`"Fort Collins High School"` as the claim states. -/
theorem c5_school_normalization_counterexample :
    normalize_school_name "fort collins" ≠ "Fort Collins High School" ∧
    normalize_school_name "fort collins" = "fort collins" := by decide

/-- C5 (corrected): school-name normalization applies the exact-match table
first (`"Fort Collins"`, `"Fort Collins HS"`, `"Fort Collins High Sc"` all
map to `"Fort Collins High School"`), then the `" HS"` → `" High School"`
suffix rewrite as fallback (`"Greeley West HS"`); the table lookup is
case-sensitive, so `"fort collins"` stays unchanged.  Name normalization
title-cases each token: `"john"` normalizes to `"John"`. -/
theorem c5_school_normalization_amended :
    normalize_school_name "Fort Collins" = "Fort Collins High School" ∧
    normalize_school_name "Fort Collins HS" = "Fort Collins High School" ∧
    normalize_school_name "Fort Collins High Sc" = "Fort Collins High School" ∧
    normalize_school_name "Greeley West HS" = "Greeley West High School" ∧
    normalize_school_name "fort collins" = "fort collins" ∧
    normalize_name "john" = "John" := by decide

/-! ## C6 -/

/-- C6: dedup keys round both the stored and the newly parsed time to two
decimal places and lower-case the name and school fields: the stored row
with time `1002.450001` (16:42.450001) and the new record with time
`1002.454` (both rounding to `1002.45`), agreeing on name, school and
place up to case, produce the same key, and the merge engine skips the new
record as a duplicate. -/
theorem c6_dedup_key_equivalence :
    existingResultKey c6stored = newResultKey c6new ∧
    Q.round2 1002.450001 = 1002.45 ∧
    Q.round2 1002.454 = 1002.45 ∧
    mergeNewResults [c6stored] [c6new] = ([], 1) := by decide

/-! ## C4 -/

set_option maxRecDepth 100000

/-- C4 (code bug): on a document whose Varsity Boys section is followed by
a JV Boys section and then a team-scores block, the extractor configured
for `"Varsity Boys 5000 Meter Run"` does NOT stop at the next section
delimiter (the JV Boys header): because the end-of-section loop tests the
`"Team Scores"` pattern first and breaks as soon as it matches, the
extracted slice runs to the team-scores block, and the JV finisher
`Zed Zebra` is returned alongside the two Varsity finishers. -/
theorem c4_section_boundary_leak :
    scrape_thornton_combined_format c4doc.data "varsity" "boys"
      = .ok (c4varsityRecords ++ [c4jvRecord]) ∧
    scrape_thornton_combined_format c4doc.data "varsity" "boys" ≠ .ok c4varsityRecords := by
  decide

/-! ## C7 -/

/-- C7: the place/record-count validator of `parse_thornton_race_text`
only computes a warning flag — it never aborts and returns the scanned
record list unchanged; on the concrete document `c7doc` with places
{1,2,3,4,6} it returns all 5 records together with the mismatch warning
(max place 6 ≠ count 5). -/
theorem c7_place_count_validator :
    (∀ (text : List Char) (gender : String) (rs : List Result),
        thorntonScanLines gender (splitNl text) false = .ok rs →
        parse_thornton_race_text text gender = .ok (rs, thorntonPlaceWarn rs)) ∧
    parse_thornton_race_text c7doc.data "girls" = .ok (c7records, true) ∧
    c7records.length = 5 ∧
    c7records.map (fun r => r.place) = [1, 2, 3, 4, 6] := by
  refine ⟨?_, by decide, by decide, by decide⟩
  intro text gender rs h
  unfold parse_thornton_race_text
  rw [h]
  rfl

/-- Witness for C7: the validator relation applied to the concrete
document `c7doc`. -/
theorem c7_place_count_validator_witness :
    parse_thornton_race_text c7doc.data "girls" = .ok (c7records, thorntonPlaceWarn c7records) :=
  c7_place_count_validator.1 c7doc.data "girls" c7records (by decide)

/-! ## C8 -/

theorem jmRowStep_of_len_ne_four (g : String) (row : List (List Char)) (h : row.length ≠ 4) :
    jmRowStep g row = none :=
  match row, h with
  | [], _ => rfl
  | [_], _ => rfl
  | [_, _], _ => rfl
  | [_, _, _], _ => rfl
  | [_, _, _, _], h => absurd rfl h
  | _ :: _ :: _ :: _ :: _ :: _, _ => rfl

theorem jmProcessRows_append_ok (g : String) (l : List (List (List Char))) :
    ∀ (pre : List (List (List Char))) (res : List Result), jmProcessRows g pre = .ok res →
      jmProcessRows g (pre ++ l) = (jmProcessRows g l).map (fun rs => res ++ rs) := by
  intro pre
  induction pre with
  | nil =>
    intro res h
    simp only [jmProcessRows] at h
    cases h
    simp only [List.nil_append]
    cases jmProcessRows g l <;> simp [Except.map]
  | cons row pre ih =>
    intro res h
    simp only [jmProcessRows, List.cons_append] at h ⊢
    cases hstep : jmRowStep g row with
    | none =>
      rw [hstep] at h
      simp only [hstep]
      exact ih res h
    | some x =>
      cases x with
      | error e =>
        rw [hstep] at h
        exact absurd h (by simp)
      | ok r =>
        rw [hstep] at h
        simp only [hstep, List.append_eq]
        cases hpre : jmProcessRows g pre with
        | error e =>
          rw [hpre] at h
          simp [Except.map] at h
        | ok res' =>
          rw [hpre] at h
          simp only [Except.map] at h
          cases h
          rw [ih res' hpre]
          cases jmProcessRows g l <;> simp [Except.map]

/-- C8: in the John Martin (strict) extractor's row loop, a structurally
recognized row (exactly four cells) whose time cell fails the time grammar
aborts the entire run (after any prefix of rows that processed normally),
while a row with a different cell count is skipped without error — the run
behaves exactly as if the row were absent. -/
theorem c8_john_martin_strict_fatal_policy :
    (∀ (g : String) (pre post : List (List (List Char))) (a b c d : List Char)
        (res : List Result),
        jmProcessRows g pre = .ok res → jmTimePattern d = false →
        jmProcessRows g (pre ++ [a, b, c, d] :: post) = .error ()) ∧
    (∀ (g : String) (pre post : List (List (List Char))) (row : List (List Char)),
        row.length ≠ 4 →
        jmProcessRows g (pre ++ row :: post) = jmProcessRows g (pre ++ post)) := by
  constructor
  · intro g pre post a b c d res hpre hbad
    have hstep : jmRowStep g [a, b, c, d] = some (.error ()) := by
      simp [jmRowStep, hbad]
    have hX : jmProcessRows g ([a, b, c, d] :: post) = .error () := by
      simp only [jmProcessRows, hstep]
    rw [jmProcessRows_append_ok g ([a, b, c, d] :: post) pre res hpre, hX]
    rfl
  · intro g pre post row hrow
    induction pre with
    | nil =>
      simp only [List.nil_append, jmProcessRows, jmRowStep_of_len_ne_four g row hrow]
    | cons r' pre ih =>
      simp only [List.cons_append, jmProcessRows]
      cases hstep : jmRowStep g r' with
      | none => simp only [hstep]; exact ih
      | some x =>
        cases x with
        | error e => simp only [hstep]
        | ok r => simp only [hstep, List.append_eq]; rw [ih]

/-- Witness for C8: a four-cell row whose time cell `"16:4x.45"` fails the
grammar aborts the run, and a three-cell row is skipped. -/
theorem c8_john_martin_strict_fatal_policy_witness :
    jmProcessRows "boys"
        [["1".data, "Ann Bee".data, "Laramie High School".data, "16:4x.45".data]] = .error () ∧
    jmProcessRows "boys" [["only".data, "three".data, "cells".data]] = jmProcessRows "boys" [] :=
  ⟨c8_john_martin_strict_fatal_policy.1 "boys" [] [] "1".data "Ann Bee".data
      "Laramie High School".data "16:4x.45".data [] rfl (by decide),
   c8_john_martin_strict_fatal_policy.2 "boys" [] [] ["only".data, "three".data, "cells".data]
      (by decide)⟩

/-! ## C10 -/

theorem charToNat_ofNat_valid (n : Nat) (h : n.isValidChar) : (Char.ofNat n).toNat = n := by
  rw [Char.ofNat, dif_pos h]
  rfl

theorem pyToLower_toNat_of_upper (c : Char) (h : 65 ≤ c.toNat ∧ c.toNat ≤ 90) :
    (pyToLower c).toNat = c.toNat + 32 := by
  unfold pyToLower
  rw [if_pos h]
  exact charToNat_ofNat_valid _ (Or.inl (by omega))

theorem pyToUpper_toNat_of_lower (c : Char) (h : 97 ≤ c.toNat ∧ c.toNat ≤ 122) :
    (pyToUpper c).toNat = c.toNat - 32 := by
  unfold pyToUpper
  rw [if_pos h]
  exact charToNat_ofNat_valid _ (Or.inl (by omega))

theorem pyToLower_pyToLower (c : Char) : pyToLower (pyToLower c) = pyToLower c := by
  by_cases h : 65 ≤ c.toNat ∧ c.toNat ≤ 90
  · have ht := pyToLower_toNat_of_upper c h
    conv_lhs => rw [pyToLower]
    rw [if_neg (by omega)]
  · have hx : pyToLower c = c := by rw [pyToLower, if_neg h]
    rw [hx, hx]

theorem pyToUpper_pyToUpper (c : Char) : pyToUpper (pyToUpper c) = pyToUpper c := by
  by_cases h : 97 ≤ c.toNat ∧ c.toNat ≤ 122
  · have ht := pyToUpper_toNat_of_lower c h
    conv_lhs => rw [pyToUpper]
    rw [if_neg (by omega)]
  · have hx : pyToUpper c = c := by rw [pyToUpper, if_neg h]
    rw [hx, hx]

theorem isPySpace_pyToLower (c : Char) : isPySpace (pyToLower c) = isPySpace c := by
  by_cases h : 65 ≤ c.toNat ∧ c.toNat ≤ 90
  · have ht := pyToLower_toNat_of_upper c h
    simp only [isPySpace, ht]
    exact decide_eq_decide.mpr (by omega)
  · rw [pyToLower, if_neg h]

theorem isPySpace_pyToUpper (c : Char) : isPySpace (pyToUpper c) = isPySpace c := by
  by_cases h : 97 ≤ c.toNat ∧ c.toNat ≤ 122
  · have ht := pyToUpper_toNat_of_lower c h
    simp only [isPySpace, ht]
    exact decide_eq_decide.mpr (by omega)
  · rw [pyToUpper, if_neg h]

theorem pySplitAux_words (l : List Char) :
    ∀ acc, (∀ c ∈ acc, isPySpace c = false) →
      ∀ w ∈ pySplitAux l acc, w ≠ [] ∧ ∀ c ∈ w, isPySpace c = false := by
  induction l with
  | nil =>
    intro acc hacc w hw
    simp only [pySplitAux] at hw
    split at hw
    · simp at hw
    · rename_i hne
      simp only [List.mem_singleton] at hw
      subst hw
      refine ⟨by simpa using hne, ?_⟩
      intro c hc
      exact hacc c (List.mem_reverse.mp hc)
  | cons c cs ih =>
    intro acc hacc w hw
    simp only [pySplitAux] at hw
    split at hw
    · rename_i hsp
      split at hw
      · exact ih [] (by simp) w hw
      · rename_i hne
        rcases List.mem_cons.mp hw with h | h
        · subst h
          refine ⟨by simpa using hne, ?_⟩
          intro x hx
          exact hacc x (List.mem_reverse.mp hx)
        · exact ih [] (by simp) w h
    · rename_i hsp
      refine ih (c :: acc) ?_ w hw
      intro x hx
      rcases List.mem_cons.mp hx with h | h
      · subst h
        exact Bool.not_eq_true _ ▸ by simpa using hsp
      · exact hacc x h

theorem pySplitAux_consume (w : List Char) (hw : ∀ c ∈ w, isPySpace c = false) :
    ∀ (r acc : List Char), pySplitAux (w ++ r) acc = pySplitAux r (w.reverse ++ acc) := by
  induction w with
  | nil => intro r acc; simp
  | cons c w ih =>
    intro r acc
    have hc : isPySpace c = false := hw c (List.mem_cons_self c w)
    simp only [List.cons_append, pySplitAux, hc, Bool.false_eq_true, if_false, List.append_eq]
    rw [ih (fun x hx => hw x (List.mem_cons_of_mem c hx)) r (c :: acc)]
    simp [List.reverse_cons, List.append_assoc]

theorem pySplit_joinSpace (ws : List (List Char))
    (h : ∀ w ∈ ws, w ≠ [] ∧ ∀ c ∈ w, isPySpace c = false) :
    pySplit (joinSpace ws) = ws := by
  induction ws with
  | nil => rfl
  | cons w ws ih =>
    obtain ⟨hwne, hwns⟩ := h w (List.mem_cons_self w ws)
    cases ws with
    | nil =>
      have h2 := pySplitAux_consume w hwns [] []
      simp only [List.append_nil] at h2
      unfold pySplit joinSpace
      rw [h2]
      simp only [pySplitAux]
      rw [if_neg (by simpa using hwne)]
      simp
    | cons w' ws' =>
      have h2 := pySplitAux_consume w hwns (' ' :: joinSpace (w' :: ws')) []
      unfold pySplit joinSpace
      rw [h2]
      simp only [List.append_nil]
      have hsp : isPySpace ' ' = true := by decide
      simp only [pySplitAux, hsp, if_true]
      rw [if_neg (by simpa using hwne)]
      simp only [List.reverse_reverse]
      exact congrArg (w :: ·) (ih (fun x hx => h x (List.mem_cons_of_mem w hx)))

theorem pyCapitalize_ne_nil {w : List Char} (h : w ≠ []) : pyCapitalize w ≠ [] := by
  cases w with
  | nil => exact absurd rfl h
  | cons c cs => simp [pyCapitalize]

theorem pyCapitalize_no_space {w : List Char} (h : ∀ c ∈ w, isPySpace c = false) :
    ∀ c ∈ pyCapitalize w, isPySpace c = false := by
  cases w with
  | nil => simp [pyCapitalize]
  | cons c cs =>
    intro x hx
    simp only [pyCapitalize, List.mem_cons] at hx
    rcases hx with hx | hx
    · subst hx
      rw [isPySpace_pyToUpper]
      exact h c (List.mem_cons_self c cs)
    · obtain ⟨y, hy, rfl⟩ := List.mem_map.mp hx
      rw [isPySpace_pyToLower]
      exact h y (List.mem_cons_of_mem c hy)

theorem pyCapitalize_idem (w : List Char) : pyCapitalize (pyCapitalize w) = pyCapitalize w := by
  cases w with
  | nil => rfl
  | cons c cs =>
    simp only [pyCapitalize, List.map_map]
    refine congrArg₂ (· :: ·) (pyToUpper_pyToUpper c) ?_
    exact List.map_congr_left (fun x _ => pyToLower_pyToLower x)

/-- C10: `normalize_name` is idempotent — its output is a single-space
separated sequence of capitalized tokens, a form the transform maps to
itself. -/
theorem c10_normalize_name_idempotent (s : String) :
    normalize_name (normalize_name s) = normalize_name s := by
  unfold normalize_name
  have hwords : ∀ w ∈ (pySplit s.data).map pyCapitalize,
      w ≠ [] ∧ ∀ c ∈ w, isPySpace c = false := by
    intro w hw
    obtain ⟨v, hv, rfl⟩ := List.mem_map.mp hw
    have hv2 := pySplitAux_words s.data [] (by simp) v hv
    exact ⟨pyCapitalize_ne_nil hv2.1, pyCapitalize_no_space hv2.2⟩
  show (⟨joinSpace ((pySplit (joinSpace ((pySplit s.data).map pyCapitalize))).map pyCapitalize)⟩ : String) = _
  rw [pySplit_joinSpace _ hwords, List.map_map]
  have : pyCapitalize ∘ pyCapitalize = pyCapitalize := funext pyCapitalize_idem
  rw [this]

/-! ## C9 -/

theorem digit_not_space (c : Char) (h : isDigitC c = true) : isPySpace c = false := by
  simp only [isDigitC, decide_eq_true_eq] at h
  simp only [isPySpace, decide_eq_false_iff_not]
  omega

theorem takeAppendOfLe {α : Type} :
    ∀ (k : Nat) (l₁ l₂ : List α), k ≤ l₁.length → (l₁ ++ l₂).take k = l₁.take k
  | 0, _, _, _ => by simp
  | k + 1, [], _, h => by simp at h
  | k + 1, x :: l₁, l₂, h => by
    simp only [List.cons_append, List.take_succ_cons]
    rw [takeAppendOfLe k l₁ l₂ (by simpa using h)]

theorem dropAppendOfLe {α : Type} :
    ∀ (k : Nat) (l₁ l₂ : List α), k ≤ l₁.length → (l₁ ++ l₂).drop k = l₁.drop k ++ l₂
  | 0, _, _, _ => by simp
  | k + 1, [], _, h => by simp at h
  | k + 1, x :: l₁, l₂, h => by
    simp only [List.cons_append, List.drop_succ_cons]
    exact dropAppendOfLe k l₁ l₂ (by simpa using h)

theorem matchToks_nil_eq (ts : List Tok) (hmin : ∀ x ∈ ts, tokMinOne x)
    (gs : List (List Char)) (r : List Char) (h : matchToks ts [] = some (gs, r)) : ts = [] := by
  cases ts with
  | nil => rfl
  | cons tok ts =>
    cases tok with
    | lit c => simp [matchToks] at h
    | digits lo hi =>
      have h1 : (1 : Nat) ≤ lo := hmin _ (List.mem_cons_self _ _)
      simp only [matchToks, List.takeWhile_nil, List.length_nil, Nat.min_zero] at h
      rw [if_neg (by omega)] at h
      exact absurd h (by simp)

theorem mem_take_of_le_takeWhile {p : Char → Bool} :
    ∀ (l : List Char) (k : Nat), k ≤ (l.takeWhile p).length → ∀ c ∈ l.take k, p c = true := by
  intro l
  induction l with
  | nil => intro k _ c hc; simp at hc
  | cons x xs ih =>
    intro k hk c hc
    cases k with
    | zero => simp at hc
    | succ k =>
      by_cases hx : p x = true
      · rw [List.take_succ_cons] at hc
        rcases List.mem_cons.mp hc with h1 | h1
        · subst h1; exact hx
        · refine ih k ?_ c h1
          rw [List.takeWhile_cons, if_pos hx] at hk
          simpa using hk
      · rw [List.takeWhile_cons, if_neg hx] at hk
        simp at hk

theorem matchToks_no_space (ts : List Tok) (hsep : ∀ x ∈ ts, tokNoWs x) :
    ∀ (u : List Char) (gs : List (List Char)), matchToks ts u = some (gs, []) →
      ∀ c ∈ u, isPySpace c = false := by
  induction ts with
  | nil =>
    intro u gs h c hc
    simp only [matchToks, Option.some.injEq, Prod.mk.injEq] at h
    rw [h.2] at hc
    simp at hc
  | cons tok ts ih =>
    have hsts : ∀ x ∈ ts, tokNoWs x := fun x hx => hsep x (List.mem_cons_of_mem _ hx)
    intro u gs h c hc
    cases tok with
    | lit c' =>
      cases u with
      | nil => simp [matchToks] at h
      | cons x u' =>
        simp only [matchToks] at h
        split at h
        · rename_i hx
          rcases List.mem_cons.mp hc with h1 | h1
          · subst h1
            subst hx
            exact hsep (.lit c) (List.mem_cons_self _ _)
          · exact ih hsts u' gs h c h1
        · simp at h
    | digits lo hi =>
      simp only [matchToks] at h
      split at h
      · rename_i hk
        cases hrec : matchToks ts (u.drop (min hi (u.takeWhile isDigitC).length)) with
        | none => rw [hrec] at h; simp at h
        | some pr =>
          obtain ⟨gs₂, r₂⟩ := pr
          rw [hrec] at h
          simp only [Option.some.injEq, Prod.mk.injEq] at h
          rw [h.2] at hrec
          have hu := (List.take_append_drop (min hi (u.takeWhile isDigitC).length) u).symm
          rcases List.mem_append.mp (hu ▸ hc) with hcl | hcr
          · have hkle : min hi (u.takeWhile isDigitC).length ≤ (u.takeWhile isDigitC).length :=
              Nat.min_le_right _ _
            exact digit_not_space c (mem_take_of_le_takeWhile u _ hkle c hcl)
          · exact ih hsts _ gs₂ hrec c hcr
      · simp at h

theorem matchToks_extend (ts : List Tok) (hmin : ∀ x ∈ ts, tokMinOne x) :
    ∀ (u t : List Char) (gs : List (List Char)), matchToks ts u = some (gs, []) →
      ∃ gs' r', matchToks ts (u ++ t) = some (gs', r') := by
  induction ts with
  | nil =>
    intro u t gs h
    simp only [matchToks, Option.some.injEq, Prod.mk.injEq] at h
    rw [h.2]
    exact ⟨[], t, rfl⟩
  | cons tok ts ih =>
    have hmts : ∀ x ∈ ts, tokMinOne x := fun x hx => hmin x (List.mem_cons_of_mem _ hx)
    intro u t gs h
    cases tok with
    | lit c =>
      cases u with
      | nil => simp [matchToks] at h
      | cons x u' =>
        simp only [matchToks] at h
        split at h
        · rename_i hx
          obtain ⟨gs', r', h2⟩ := ih hmts u' t gs h
          refine ⟨gs', r', ?_⟩
          simpa [matchToks, hx] using h2
        · simp at h
    | digits lo hi =>
      simp only [matchToks] at h
      split at h
      case isFalse => simp at h
      case isTrue hk =>
        set k := min hi (u.takeWhile isDigitC).length with hkdef
        cases hrec : matchToks ts (u.drop k) with
        | none => rw [hrec] at h; simp at h
        | some pr =>
          obtain ⟨gs₂, r₂⟩ := pr
          rw [hrec] at h
          simp only [Option.some.injEq, Prod.mk.injEq] at h
          rw [h.2] at hrec
          have hrunle : (u.takeWhile isDigitC).length ≤ u.length :=
            (List.takeWhile_sublist (l := u) isDigitC).length_le
          have hkle : k ≤ u.length := le_trans (Nat.min_le_right _ _) hrunle
          by_cases hall : (u.takeWhile isDigitC).length = u.length
          · by_cases hku : k = u.length
            · have hdnil : u.drop k = [] := by rw [hku, List.drop_length]
              rw [hdnil] at hrec
              have hts : ts = [] := matchToks_nil_eq ts hmts gs₂ [] hrec
              subst hts
              refine ⟨[(u ++ t).take (min hi ((u ++ t).takeWhile isDigitC).length)],
                (u ++ t).drop (min hi ((u ++ t).takeWhile isDigitC).length), ?_⟩
              simp only [matchToks]
              rw [if_pos ?_]
              · have hlen : k ≤ ((u ++ t).takeWhile isDigitC).length := by
                  rw [List.takeWhile_append, if_pos hall]
                  simp only [List.length_append]
                  omega
                omega
            · have hk_hi : k = hi := by
                rw [hkdef, hall] at hku ⊢
                omega
              have hrun' : (u ++ t).takeWhile isDigitC = u ++ t.takeWhile isDigitC := by
                rw [List.takeWhile_append, if_pos hall]
              have hk' : min hi ((u ++ t).takeWhile isDigitC).length = k := by
                rw [hrun']
                simp only [List.length_append]
                rw [hkdef, hall] at hku ⊢
                omega
              obtain ⟨gs', r', hrec'⟩ := ih hmts (u.drop k) t gs₂ hrec
              refine ⟨(u ++ t).take k :: gs', r', ?_⟩
              simp only [matchToks, hk']
              rw [if_pos hk, dropAppendOfLe k u t hkle, hrec']
          · have hrun' : (u ++ t).takeWhile isDigitC = u.takeWhile isDigitC := by
              rw [List.takeWhile_append, if_neg hall]
            obtain ⟨gs', r', hrec'⟩ := ih hmts (u.drop k) t gs₂ hrec
            refine ⟨(u ++ t).take k :: gs', r', ?_⟩
            simp only [matchToks, hrun', ← hkdef]
            rw [if_pos hk, dropAppendOfLe k u t hkle, hrec']

theorem firstMatchAux_some_of_any (ps : List (List Tok)) (x : List Char)
    (h : ∃ p ∈ ps, matchToks p x ≠ none) : ∀ i, firstMatchAux i ps x ≠ none := by
  induction ps with
  | nil => obtain ⟨p, hp, _⟩ := h; simp at hp
  | cons p ps ih =>
    intro i
    simp only [firstMatchAux]
    cases hm : matchToks p x with
    | some pr => simp
    | none =>
      obtain ⟨q, hq, hne⟩ := h
      rcases List.mem_cons.mp hq with h1 | h1
      · subst h1; exact absurd hm hne
      · exact ih ⟨q, h1, hne⟩ (i + 1)

theorem dropWhile_head_false {p : Char → Bool} {l : List Char} (hne : l ≠ [])
    (h : ∀ c ∈ l, p c = false) : l.dropWhile p = l := by
  cases l with
  | nil => rfl
  | cons x xs =>
    rw [List.dropWhile_cons, if_neg]
    simp [h x (List.mem_cons_self x xs)]

theorem pyStrip_append_nospace (s t : List Char) (hne : s ≠ [])
    (hns : ∀ c ∈ s, isPySpace c = false) :
    pyStrip (s ++ t) = s ++ stripRightWs t := by
  unfold pyStrip stripLeftWs stripRightWs
  rw [show (s ++ t).dropWhile isPySpace = s ++ t from ?_]
  · rw [List.reverse_append, List.dropWhile_append]
    split
    · rename_i hemp
      have hrev : s.reverse.dropWhile isPySpace = s.reverse :=
        dropWhile_head_false (by simpa using hne) (fun c hc => hns c (List.mem_reverse.mp hc))
      rw [hrev, List.reverse_reverse]
      have : t.reverse.dropWhile isPySpace = [] := by
        rwa [List.isEmpty_iff] at hemp
      rw [this]
      simp
    · rw [List.reverse_append, List.reverse_reverse]
  · cases s with
    | nil => exact absurd rfl hne
    | cons x xs =>
      rw [List.cons_append, List.dropWhile_cons,
        if_neg (by simp [hns x (List.mem_cons_self x xs)])]

/-- C9: `parse_time_to_seconds` matches each supported shape only against a
prefix of the (stripped) input: whenever some string fully matching a
supported shape is extended by arbitrary trailing characters, the parser
does not reject the extended string; in particular `"16:42.45xyz"` parses
to `1002.45`, exactly like `"16:42.45"`. -/
theorem c9_trailing_characters_ignored :
    (∀ s t : List Char, fullShapeMatch s = true → parse_time_to_seconds (s ++ t) ≠ .failure) ∧
    parse_time_to_seconds "16:42.45xyz".data = .ok 1002.45 ∧
    parse_time_to_seconds "16:42.45xyz".data = parse_time_to_seconds "16:42.45".data := by
  refine ⟨?_, by decide, by decide⟩
  intro s t hfull
  simp only [fullShapeMatch, List.any_eq_true] at hfull
  obtain ⟨p, hp, hfm2⟩ := hfull
  unfold fullMatchToks at hfm2
  have hminall : ∀ q ∈ timePatterns, ∀ x ∈ q, tokMinOne x := by decide
  have hsepall : ∀ q ∈ timePatterns, ∀ x ∈ q, tokNoWs x := by decide
  have hneall : ∀ q ∈ timePatterns, q ≠ [] := by decide
  cases hm : matchToks p s with
  | none => rw [hm] at hfm2; simp at hfm2
  | some pr =>
    obtain ⟨gs, r⟩ := pr
    rw [hm] at hfm2
    cases r with
    | cons hd tl => simp at hfm2
    | nil =>
      have hsne : s ≠ [] := by
        intro hs
        subst hs
        exact hneall p hp (matchToks_nil_eq p (hminall p hp) gs [] hm)
      have hns := matchToks_no_space p (hsepall p hp) s gs hm
      have hst := pyStrip_append_nospace s t hsne hns
      obtain ⟨gs', r', hext⟩ := matchToks_extend p (hminall p hp) s (stripRightWs t) gs hm
      have hfm := firstMatchAux_some_of_any timePatterns (s ++ stripRightWs t)
        ⟨p, hp, by rw [hext]; simp⟩ 0
      unfold parse_time_to_seconds
      rw [hst]
      cases hx : firstMatchAux 0 timePatterns (s ++ stripRightWs t) with
      | none => exact absurd hx hfm
      | some y =>
        obtain ⟨i, gs₂, r₂⟩ := y
        split
        · rename_i heq
          exact absurd heq (by simp)
        · dsimp only
          split <;> simp

/-- Witness for C9: the fully matching shape `"999.50"` extended by
`"junk"` is still accepted by the parser. -/
theorem c9_trailing_characters_ignored_witness :
    parse_time_to_seconds ("999.50".data ++ "junk".data) ≠ .failure :=
  c9_trailing_characters_ignored.1 "999.50".data "junk".data (by decide)


/-! ## C1, amended theorem

Evaluation lemmas for `matchToks` on literal shape instances built from
arbitrary digit components, then the per-shape denotation theorems. -/

theorem takeWhile_digits_sep (c : Char) (s : List Char) (hc : isDigitC c = false) :
    (c :: s).takeWhile isDigitC = [] := by
  rw [List.takeWhile_cons, if_neg (by simp [hc])]

theorem matchToks_lit_cons (c : Char) (ts : List Tok) (s : List Char) :
    matchToks (.lit c :: ts) (c :: s) = matchToks ts s := by
  simp [matchToks]

theorem matchToks_lit_ne (c x : Char) (ts : List Tok) (s : List Char) (h : x ≠ c) :
    matchToks (.lit c :: ts) (x :: s) = none := by
  simp [matchToks, h]

theorem matchToks_lit_nil (c : Char) (ts : List Tok) :
    matchToks (.lit c :: ts) [] = none := by
  simp [matchToks]

theorem matchToks_digits_exact (lo hi : Nat) (ts : List Tok) (d rest : List Char)
    (hall : ∀ x ∈ d, isDigitC x = true) (hrest : rest.takeWhile isDigitC = [])
    (h1 : lo ≤ d.length) (h2 : d.length ≤ hi) :
    matchToks (.digits lo hi :: ts) (d ++ rest) =
      (matchToks ts rest).map (fun pr => (d :: pr.1, pr.2)) := by
  simp only [matchToks]
  rw [List.takeWhile_append_of_pos hall, hrest, List.append_nil,
    Nat.min_eq_right h2, if_pos h1, List.drop_left, List.take_left]
  cases matchToks ts rest with
  | none => rfl
  | some pr => obtain ⟨gs, r⟩ := pr; rfl

theorem matchToks_digits_last (lo hi : Nat) (ts : List Tok) (d : List Char)
    (hall : ∀ x ∈ d, isDigitC x = true) (h1 : lo ≤ d.length) (h2 : d.length ≤ hi) :
    matchToks (.digits lo hi :: ts) d =
      (matchToks ts []).map (fun pr => (d :: pr.1, pr.2)) := by
  have h := matchToks_digits_exact lo hi ts d [] hall rfl h1 h2
  simpa using h

theorem matchToks_digits_over (lo hi : Nat) (c : Char) (ts : List Tok) (d rest : List Char)
    (hall : ∀ x ∈ d, isDigitC x = true) (hrest : rest.takeWhile isDigitC = [])
    (hover : hi < d.length) (hc : isDigitC c = false) :
    matchToks (.digits lo hi :: .lit c :: ts) (d ++ rest) = none := by
  simp only [matchToks]
  rw [List.takeWhile_append_of_pos hall, hrest, List.append_nil,
    Nat.min_eq_left (Nat.le_of_lt hover), dropAppendOfLe hi d rest (Nat.le_of_lt hover)]
  cases hd : d.drop hi with
  | nil =>
    exfalso
    have hlen : (d.drop hi).length = 0 := by rw [hd]; rfl
    rw [List.length_drop] at hlen
    omega
  | cons x xs =>
    have hx : isDigitC x = true :=
      hall x (List.mem_of_mem_drop (n := hi) (hd ▸ List.mem_cons_self x xs))
    have hxc : x ≠ c := by
      intro he
      subst he
      rw [hx] at hc
      exact absurd hc (by simp)
    rw [List.cons_append]
    split
    · simp [hxc]
    · rfl

theorem pyStrip_eq_self (l : List Char) (h : ∀ c ∈ l, isPySpace c = false) : pyStrip l = l := by
  cases l with
  | nil => rfl
  | cons x xs =>
    unfold pyStrip stripLeftWs stripRightWs
    rw [dropWhile_head_false (by simp) h,
      dropWhile_head_false (by simp) (fun c hc => h c (List.mem_reverse.mp hc))]
    exact List.reverse_reverse _

/-- Shape `H:MM:SS.f` / `H:MM:SS.ff` (pattern 0): denotes
hours·3600 + minutes·60 + seconds + fraction. -/
theorem parse_shape_hms_frac (h m s f : List Char)
    (hh : ∀ c ∈ h, isDigitC c = true) (hh1 : 1 ≤ h.length) (hh2 : h.length ≤ 2)
    (hm : ∀ c ∈ m, isDigitC c = true) (hm2 : m.length = 2)
    (hs : ∀ c ∈ s, isDigitC c = true) (hs2 : s.length = 2)
    (hf : ∀ c ∈ f, isDigitC c = true) (hf1 : 1 ≤ f.length) (hf2 : f.length ≤ 2) :
    parse_time_to_seconds (h ++ ':' :: (m ++ ':' :: (s ++ '.' :: f))) =
      sanityWrap (((natOfDigits h * 3600 + natOfDigits m * 60 + natOfDigits s : Nat) : Q)
        + fracVal f) := by
  have hsepA : (':' :: (m ++ ':' :: (s ++ '.' :: f))).takeWhile isDigitC = [] :=
    takeWhile_digits_sep ':' _ (by decide)
  have hsepB : (':' :: (s ++ '.' :: f)).takeWhile isDigitC = [] :=
    takeWhile_digits_sep ':' _ (by decide)
  have hsepC : ('.' :: f).takeWhile isDigitC = [] :=
    takeWhile_digits_sep '.' _ (by decide)
  have hp0 : matchToks
      [.digits 1 2, .lit ':', .digits 2 2, .lit ':', .digits 2 2, .lit '.', .digits 1 2]
      (h ++ ':' :: (m ++ ':' :: (s ++ '.' :: f))) = some ([h, m, s, f], []) := by
    rw [matchToks_digits_exact 1 2 _ h _ hh hsepA hh1 hh2, matchToks_lit_cons,
      matchToks_digits_exact 2 2 _ m _ hm hsepB (by omega) (by omega), matchToks_lit_cons,
      matchToks_digits_exact 2 2 _ s _ hs hsepC (by omega) (by omega), matchToks_lit_cons,
      matchToks_digits_last 1 2 _ f hf hf1 hf2]
    rfl
  have hns : ∀ c ∈ (h ++ ':' :: (m ++ ':' :: (s ++ '.' :: f))), isPySpace c = false := by
    intro c hc
    simp only [List.mem_append, List.mem_cons, or_assoc] at hc
    rcases hc with hc | hc | hc | hc | hc | hc | hc
    · exact digit_not_space c (hh c hc)
    · subst hc; decide
    · exact digit_not_space c (hm c hc)
    · subst hc; decide
    · exact digit_not_space c (hs c hc)
    · subst hc; decide
    · exact digit_not_space c (hf c hc)
  unfold parse_time_to_seconds
  rw [pyStrip_eq_self _ hns]
  simp only [timePatterns, firstMatchAux]
  rw [hp0]
  rfl

/-- Undotted shape `A:BB:CC` (pattern 1): read by the source as
minutes : seconds : hundredths, i.e. A·60 + BB + CC/100. -/
theorem parse_shape_colon3 (a b cc : List Char)
    (ha : ∀ c ∈ a, isDigitC c = true) (ha1 : 1 ≤ a.length) (ha2 : a.length ≤ 2)
    (hb : ∀ c ∈ b, isDigitC c = true) (hb2 : b.length = 2)
    (hcc : ∀ c ∈ cc, isDigitC c = true) (hcc2 : cc.length = 2) :
    parse_time_to_seconds (a ++ ':' :: (b ++ ':' :: cc)) =
      sanityWrap (((natOfDigits a * 60 + natOfDigits b : Nat) : Q)
        + (natOfDigits cc : Q) / 100) := by
  have hsepA : (':' :: (b ++ ':' :: cc)).takeWhile isDigitC = [] :=
    takeWhile_digits_sep ':' _ (by decide)
  have hsepB : (':' :: cc).takeWhile isDigitC = [] :=
    takeWhile_digits_sep ':' _ (by decide)
  have hp0 : matchToks
      [.digits 1 2, .lit ':', .digits 2 2, .lit ':', .digits 2 2, .lit '.', .digits 1 2]
      (a ++ ':' :: (b ++ ':' :: cc)) = none := by
    rw [matchToks_digits_exact 1 2 _ a _ ha hsepA ha1 ha2, matchToks_lit_cons,
      matchToks_digits_exact 2 2 _ b _ hb hsepB (by omega) (by omega), matchToks_lit_cons,
      matchToks_digits_last 2 2 _ cc hcc (by omega) (by omega), matchToks_lit_nil]
    rfl
  have hp1 : matchToks [.digits 1 2, .lit ':', .digits 2 2, .lit ':', .digits 2 2]
      (a ++ ':' :: (b ++ ':' :: cc)) = some ([a, b, cc], []) := by
    rw [matchToks_digits_exact 1 2 _ a _ ha hsepA ha1 ha2, matchToks_lit_cons,
      matchToks_digits_exact 2 2 _ b _ hb hsepB (by omega) (by omega), matchToks_lit_cons,
      matchToks_digits_last 2 2 _ cc hcc (by omega) (by omega)]
    rfl
  have hns : ∀ c ∈ (a ++ ':' :: (b ++ ':' :: cc)), isPySpace c = false := by
    intro c hc
    simp only [List.mem_append, List.mem_cons, or_assoc] at hc
    rcases hc with hc | hc | hc | hc | hc
    · exact digit_not_space c (ha c hc)
    · subst hc; decide
    · exact digit_not_space c (hb c hc)
    · subst hc; decide
    · exact digit_not_space c (hcc c hc)
  unfold parse_time_to_seconds
  rw [pyStrip_eq_self _ hns]
  simp only [timePatterns, firstMatchAux]
  rw [hp0, hp1]
  rfl

/-- Shape `MM:SS.f` / `MM:SS.ff` (pattern 2): denotes
minutes·60 + seconds + fraction. -/
theorem parse_shape_ms_frac (m s f : List Char)
    (hm : ∀ c ∈ m, isDigitC c = true) (hm1 : 1 ≤ m.length) (hm2 : m.length ≤ 2)
    (hs : ∀ c ∈ s, isDigitC c = true) (hs2 : s.length = 2)
    (hf : ∀ c ∈ f, isDigitC c = true) (hf1 : 1 ≤ f.length) (hf2 : f.length ≤ 2) :
    parse_time_to_seconds (m ++ ':' :: (s ++ '.' :: f)) =
      sanityWrap (((natOfDigits m * 60 + natOfDigits s : Nat) : Q) + fracVal f) := by
  have hsepA : (':' :: (s ++ '.' :: f)).takeWhile isDigitC = [] :=
    takeWhile_digits_sep ':' _ (by decide)
  have hsepB : ('.' :: f).takeWhile isDigitC = [] :=
    takeWhile_digits_sep '.' _ (by decide)
  have hp0 : matchToks
      [.digits 1 2, .lit ':', .digits 2 2, .lit ':', .digits 2 2, .lit '.', .digits 1 2]
      (m ++ ':' :: (s ++ '.' :: f)) = none := by
    rw [matchToks_digits_exact 1 2 _ m _ hm hsepA hm1 hm2, matchToks_lit_cons,
      matchToks_digits_exact 2 2 _ s _ hs hsepB (by omega) (by omega),
      matchToks_lit_ne ':' '.' _ _ (by decide)]
    rfl
  have hp1 : matchToks [.digits 1 2, .lit ':', .digits 2 2, .lit ':', .digits 2 2]
      (m ++ ':' :: (s ++ '.' :: f)) = none := by
    rw [matchToks_digits_exact 1 2 _ m _ hm hsepA hm1 hm2, matchToks_lit_cons,
      matchToks_digits_exact 2 2 _ s _ hs hsepB (by omega) (by omega),
      matchToks_lit_ne ':' '.' _ _ (by decide)]
    rfl
  have hp2 : matchToks [.digits 1 2, .lit ':', .digits 2 2, .lit '.', .digits 1 2]
      (m ++ ':' :: (s ++ '.' :: f)) = some ([m, s, f], []) := by
    rw [matchToks_digits_exact 1 2 _ m _ hm hsepA hm1 hm2, matchToks_lit_cons,
      matchToks_digits_exact 2 2 _ s _ hs hsepB (by omega) (by omega), matchToks_lit_cons,
      matchToks_digits_last 1 2 _ f hf hf1 hf2]
    rfl
  have hns : ∀ c ∈ (m ++ ':' :: (s ++ '.' :: f)), isPySpace c = false := by
    intro c hc
    simp only [List.mem_append, List.mem_cons, or_assoc] at hc
    rcases hc with hc | hc | hc | hc | hc
    · exact digit_not_space c (hm c hc)
    · subst hc; decide
    · exact digit_not_space c (hs c hc)
    · subst hc; decide
    · exact digit_not_space c (hf c hc)
  unfold parse_time_to_seconds
  rw [pyStrip_eq_self _ hns]
  simp only [timePatterns, firstMatchAux]
  rw [hp0, hp1, hp2]
  rfl

/-- Shape `MM:SS` (pattern 3): denotes minutes·60 + seconds. -/
theorem parse_shape_ms (m s : List Char)
    (hm : ∀ c ∈ m, isDigitC c = true) (hm1 : 1 ≤ m.length) (hm2 : m.length ≤ 2)
    (hs : ∀ c ∈ s, isDigitC c = true) (hs2 : s.length = 2) :
    parse_time_to_seconds (m ++ ':' :: s) =
      sanityWrap (((natOfDigits m * 60 + natOfDigits s : Nat) : Q)) := by
  have hsepA : (':' :: s).takeWhile isDigitC = [] :=
    takeWhile_digits_sep ':' _ (by decide)
  have hp0 : matchToks
      [.digits 1 2, .lit ':', .digits 2 2, .lit ':', .digits 2 2, .lit '.', .digits 1 2]
      (m ++ ':' :: s) = none := by
    rw [matchToks_digits_exact 1 2 _ m _ hm hsepA hm1 hm2, matchToks_lit_cons,
      matchToks_digits_last 2 2 _ s hs (by omega) (by omega), matchToks_lit_nil]
    rfl
  have hp1 : matchToks [.digits 1 2, .lit ':', .digits 2 2, .lit ':', .digits 2 2]
      (m ++ ':' :: s) = none := by
    rw [matchToks_digits_exact 1 2 _ m _ hm hsepA hm1 hm2, matchToks_lit_cons,
      matchToks_digits_last 2 2 _ s hs (by omega) (by omega), matchToks_lit_nil]
    rfl
  have hp2 : matchToks [.digits 1 2, .lit ':', .digits 2 2, .lit '.', .digits 1 2]
      (m ++ ':' :: s) = none := by
    rw [matchToks_digits_exact 1 2 _ m _ hm hsepA hm1 hm2, matchToks_lit_cons,
      matchToks_digits_last 2 2 _ s hs (by omega) (by omega), matchToks_lit_nil]
    rfl
  have hp3 : matchToks [.digits 1 2, .lit ':', .digits 2 2] (m ++ ':' :: s)
      = some ([m, s], []) := by
    rw [matchToks_digits_exact 1 2 _ m _ hm hsepA hm1 hm2, matchToks_lit_cons,
      matchToks_digits_last 2 2 _ s hs (by omega) (by omega)]
    rfl
  have hns : ∀ c ∈ (m ++ ':' :: s), isPySpace c = false := by
    intro c hc
    simp only [List.mem_append, List.mem_cons, or_assoc] at hc
    rcases hc with hc | hc | hc
    · exact digit_not_space c (hm c hc)
    · subst hc; decide
    · exact digit_not_space c (hs c hc)
  unfold parse_time_to_seconds
  rw [pyStrip_eq_self _ hns]
  simp only [timePatterns, firstMatchAux]
  rw [hp0, hp1, hp2, hp3]
  rfl

/-- Seconds-only shape `SSS.f` / `SSSS.ff` (pattern 4, 3-4 integer
digits): denotes seconds + fraction. -/
theorem parse_shape_seconds_frac (s f : List Char)
    (hs : ∀ c ∈ s, isDigitC c = true) (hs3 : 3 ≤ s.length) (hs4 : s.length ≤ 4)
    (hf : ∀ c ∈ f, isDigitC c = true) (hf1 : 1 ≤ f.length) (hf2 : f.length ≤ 2) :
    parse_time_to_seconds (s ++ '.' :: f) =
      sanityWrap (((natOfDigits s : Nat) : Q) + fracVal f) := by
  have hsepD : ('.' :: f).takeWhile isDigitC = [] :=
    takeWhile_digits_sep '.' _ (by decide)
  have hp0 : matchToks
      [.digits 1 2, .lit ':', .digits 2 2, .lit ':', .digits 2 2, .lit '.', .digits 1 2]
      (s ++ '.' :: f) = none :=
    matchToks_digits_over 1 2 ':' _ s _ hs hsepD (by omega) (by decide)
  have hp1 : matchToks [.digits 1 2, .lit ':', .digits 2 2, .lit ':', .digits 2 2]
      (s ++ '.' :: f) = none :=
    matchToks_digits_over 1 2 ':' _ s _ hs hsepD (by omega) (by decide)
  have hp2 : matchToks [.digits 1 2, .lit ':', .digits 2 2, .lit '.', .digits 1 2]
      (s ++ '.' :: f) = none :=
    matchToks_digits_over 1 2 ':' _ s _ hs hsepD (by omega) (by decide)
  have hp3 : matchToks [.digits 1 2, .lit ':', .digits 2 2] (s ++ '.' :: f) = none :=
    matchToks_digits_over 1 2 ':' _ s _ hs hsepD (by omega) (by decide)
  have hp4 : matchToks [.digits 3 4, .lit '.', .digits 1 2] (s ++ '.' :: f)
      = some ([s, f], []) := by
    rw [matchToks_digits_exact 3 4 _ s _ hs hsepD (by omega) (by omega), matchToks_lit_cons,
      matchToks_digits_last 1 2 _ f hf hf1 hf2]
    rfl
  have hns : ∀ c ∈ (s ++ '.' :: f), isPySpace c = false := by
    intro c hc
    simp only [List.mem_append, List.mem_cons, or_assoc] at hc
    rcases hc with hc | hc | hc
    · exact digit_not_space c (hs c hc)
    · subst hc; decide
    · exact digit_not_space c (hf c hc)
  unfold parse_time_to_seconds
  rw [pyStrip_eq_self _ hns]
  simp only [timePatterns, firstMatchAux]
  rw [hp0, hp1, hp2, hp3, hp4]
  rfl

/-- C1 (corrected): for every supported literal time shape — quantified
over arbitrary digit components — `parse_time_to_seconds` computes exactly
the numeric value the shape denotes (returned via `sanityWrap`: normally
when at most 3600 seconds, through the fatal path above that).  The dotted
`H:MM:SS.f(f)` shape denotes hours·3600 + minutes·60 + seconds + fraction,
with a one-digit fraction read as tenths and a two-digit fraction as
hundredths (`fracVal`); the undotted `A:BB:CC` shape is read by the source
as minutes : seconds : hundredths; `MM:SS.f(f)`, `MM:SS` and the
seconds-only `SSS.f(f)`/`SSSS.f(f)` shapes denote the obvious values.  In
particular `"16:42.45"` parses to `1002.45`, `"1:02:03"` parses to `62.03`
(not `3723.0`), and `"999.50"` parses to `999.5`. -/
theorem c1_time_literal_shapes_amended :
    (∀ h m s f : List Char,
      (∀ c ∈ h, isDigitC c = true) → 1 ≤ h.length → h.length ≤ 2 →
      (∀ c ∈ m, isDigitC c = true) → m.length = 2 →
      (∀ c ∈ s, isDigitC c = true) → s.length = 2 →
      (∀ c ∈ f, isDigitC c = true) → 1 ≤ f.length → f.length ≤ 2 →
      parse_time_to_seconds (h ++ ':' :: (m ++ ':' :: (s ++ '.' :: f))) =
        sanityWrap (((natOfDigits h * 3600 + natOfDigits m * 60 + natOfDigits s : Nat) : Q)
          + fracVal f)) ∧
    (∀ a b cc : List Char,
      (∀ c ∈ a, isDigitC c = true) → 1 ≤ a.length → a.length ≤ 2 →
      (∀ c ∈ b, isDigitC c = true) → b.length = 2 →
      (∀ c ∈ cc, isDigitC c = true) → cc.length = 2 →
      parse_time_to_seconds (a ++ ':' :: (b ++ ':' :: cc)) =
        sanityWrap (((natOfDigits a * 60 + natOfDigits b : Nat) : Q)
          + (natOfDigits cc : Q) / 100)) ∧
    (∀ m s f : List Char,
      (∀ c ∈ m, isDigitC c = true) → 1 ≤ m.length → m.length ≤ 2 →
      (∀ c ∈ s, isDigitC c = true) → s.length = 2 →
      (∀ c ∈ f, isDigitC c = true) → 1 ≤ f.length → f.length ≤ 2 →
      parse_time_to_seconds (m ++ ':' :: (s ++ '.' :: f)) =
        sanityWrap (((natOfDigits m * 60 + natOfDigits s : Nat) : Q) + fracVal f)) ∧
    (∀ m s : List Char,
      (∀ c ∈ m, isDigitC c = true) → 1 ≤ m.length → m.length ≤ 2 →
      (∀ c ∈ s, isDigitC c = true) → s.length = 2 →
      parse_time_to_seconds (m ++ ':' :: s) =
        sanityWrap (((natOfDigits m * 60 + natOfDigits s : Nat) : Q))) ∧
    (∀ s f : List Char,
      (∀ c ∈ s, isDigitC c = true) → 3 ≤ s.length → s.length ≤ 4 →
      (∀ c ∈ f, isDigitC c = true) → 1 ≤ f.length → f.length ≤ 2 →
      parse_time_to_seconds (s ++ '.' :: f) =
        sanityWrap (((natOfDigits s : Nat) : Q) + fracVal f)) ∧
    parse_time_to_seconds "16:42.45".data = .ok 1002.45 ∧
    parse_time_to_seconds "1:02:03".data = .ok 62.03 ∧
    parse_time_to_seconds "999.50".data = .ok 999.5 :=
  ⟨parse_shape_hms_frac, parse_shape_colon3, parse_shape_ms_frac, parse_shape_ms,
   parse_shape_seconds_frac, by decide, by decide, by decide⟩

/-- Witness for C1 at the shape instance `16:42.45` (components
`["16", "42", "45"]` of the `MM:SS.ff` shape). -/
theorem c1_time_literal_shapes_amended_witness :
    parse_time_to_seconds (['1', '6'] ++ ':' :: (['4', '2'] ++ '.' :: ['4', '5'])) =
      sanityWrap (((natOfDigits ['1', '6'] * 60 + natOfDigits ['4', '2'] : Nat) : Q)
        + fracVal ['4', '5']) :=
  c1_time_literal_shapes_amended.2.2.1 ['1', '6'] ['4', '2'] ['4', '5']
    (by decide) (by decide) (by decide) (by decide) (by decide) (by decide) (by decide) (by decide)
